import Mathlib

/-!
Verification of the window-enumerator snapshot-and-query pipeline.

The Rust sources (`src/utils.rs`, `src/models.rs`, `src/types.rs`,
`src/enumerator.rs`, `src/errors.rs`) are shallowly embedded below.
Strings are modelled as `List Char`; Rust's Unicode lowercasing and
whitespace trimming are modelled at the ASCII level, which covers every
behaviour exercised here.  Machine integers (`usize`, `u32`, `i32`, `i8`)
are modelled as `Nat`/`Int`; `usize` parsing checks the `2^64` bound
explicitly.  Fallible Rust functions returning `Result` become `Except`.
The Win32 Window Source (the `EnumWindows` callback machinery and the
per-window metadata calls) is modelled as data delivered to the snapshot
builder: a list of raw per-window facts plus an optional terminal
enumeration failure code.
-/

deriving instance DecidableEq for Except

namespace WinEnum

/-- Strings are modelled as lists of characters. -/
abbrev Str := List Char

/-- Model of whitespace characters recognised by `str::trim`
(ASCII subset). -/
def isWs (c : Char) : Bool :=
  c = ' ' || c = '\t' || c = '\n' || c = '\r'

/-- Model of `str::trim`: drop leading and trailing whitespace. -/
def trimStr (s : Str) : Str :=
  ((s.dropWhile isWs).reverse.dropWhile isWs).reverse

/-- Model of `str::to_lowercase` (ASCII subset, via `Char.toLower`). -/
def lowerStr (s : Str) : Str :=
  s.map Char.toLower

/-- Model of `str::split(sep)`: split into the (never empty) list of
  fields between occurrences of `sep`. -/
def splitOnCh (sep : Char) : Str → List Str
  | [] => [[]]
  | c :: rest =>
    match splitOnCh sep rest with
    | [] => [[]]
    | h :: t => if c = sep then [] :: h :: t else (c :: h) :: t

/-- Model of `str::starts_with(c : char)`. -/
def startsWithCh (s : Str) (c : Char) : Bool :=
  match s with
  | [] => false
  | h :: _ => h = c

/-- Is `p` a leading segment of `s`? (model of byte-wise comparison
  used by `str::contains`). -/
def leadsStr : Str → Str → Bool
  | [], _ => true
  | _ :: _, [] => false
  | a :: as_, b :: bs => a = b && leadsStr as_ bs

/-- Model of `str::contains(sub : &str)`: `sub` occurs contiguously in
  the haystack (the empty needle always matches). -/
def containsSub (hay sub : Str) : Bool :=
  match hay with
  | [] => sub.isEmpty
  | _ :: t => leadsStr sub hay || containsSub t sub

/-- Decimal digit value of a character, `none` for a non-digit
  (model of the digit test inside `usize::from_str`). -/
def digitVal (c : Char) : Option Nat :=
  if '0' ≤ c ∧ c ≤ '9' then some (c.toNat - 48) else none

/-- Accumulate the decimal value of a digit string; `none` on the first
  non-digit. -/
def digitsLoop (acc : Nat) : Str → Option Nat
  | [] => some acc
  | c :: cs =>
    match digitVal c with
    | some d => digitsLoop (acc * 10 + d) cs
    | none => none

/-- Model of `usize::from_str`: an optional leading `+`, then one or
  more decimal digits, value below `2^64` (64-bit `usize`). -/
def rustParseUsize (s : Str) : Option Nat :=
  let digits := match s with
    | '+' :: rest => rest
    | _ => s
  match digits with
  | [] => none
  | _ :: _ =>
    match digitsLoop 0 digits with
    | some n => if n < 2 ^ 64 then some n else none
    | none => none

/-! ## Data model (`src/types.rs`, `src/errors.rs`) -/

/-- `types.rs`: a window's position and dimensions. -/
structure WindowPosition where
  x : Int
  y : Int
  width : Int
  height : Int
  deriving DecidableEq

/-- `types.rs`: per-window record. -/
structure WindowInfo where
  hwnd : Int
  pid : Nat
  title : Str
  class_name : Str
  process_name : Str
  process_file : Str
  index : Nat
  position : WindowPosition
  deriving DecidableEq

/-- `types.rs`: filter criteria. -/
structure FilterCriteria where
  pid : Option Nat := none
  title_contains : Option Str := none
  class_name_contains : Option Str := none
  process_name_contains : Option Str := none
  process_file_contains : Option Str := none
  deriving DecidableEq

/-- `types.rs`: selection criteria. -/
inductive Selection where
  | All : Selection
  | Indices : List Nat → Selection
  deriving DecidableEq

/-- `types.rs`: position-based sorting criteria (directions are `i8`:
  1 ascending, -1 descending). -/
inductive PositionSort where
  | X : Int → PositionSort
  | Y : Int → PositionSort
  | XY : Int → Int → PositionSort
  deriving DecidableEq

/-- `types.rs`: sort criteria (0 means the key is inactive). -/
structure SortCriteria where
  pid : Int := 0
  title : Int := 0
  position : Option PositionSort := none
  deriving DecidableEq

/-- `errors.rs`: error kinds. -/
inductive WindowError where
  | InvalidSelectionFormat : WindowError
  | InvalidPositionSortFormat : WindowError
  | InvalidRange : WindowError
  | InvalidIndex : WindowError
  | InvalidSortOrder : WindowError
  | WindowsApiError : Nat → WindowError
  | Other : Str → WindowError
  deriving DecidableEq

/-! ## `src/utils.rs` -/

/-- `utils.rs::parse_index`: parse a `usize`, mapping any parse error to
  `InvalidIndex`. -/
def parse_index (s : Str) : Except WindowError Nat :=
  match rustParseUsize s with
  | some n => .ok n
  | none => .error .InvalidIndex

/-- Body of the token loop in `utils.rs::parse_selection` for one
  (already trimmed) comma-separated part: a token containing `-` is
  split on `-` and must have exactly two sides, which are trimmed,
  parsed and expanded to the ascending inclusive range; any other token
  is parsed as a single index. -/
def processPart (part : Str) : Except WindowError (List Nat) :=
  if part.contains '-' then
    match splitOnCh '-' part with
    | [a, b] =>
      match parse_index (trimStr a) with
      | .error e => .error e
      | .ok st =>
        match parse_index (trimStr b) with
        | .error e => .error e
        | .ok en => .ok (List.range' st (en + 1 - st))
    | _ => .error .InvalidRange
  else
    match parse_index part with
    | .error e => .error e
    | .ok i => .ok [i]

/-- The token loop of `utils.rs::parse_selection`: each part is trimmed
  and processed; the first error aborts; successful expansions are
  accumulated in order. -/
def processParts : List Str → Except WindowError (List Nat)
  | [] => .ok []
  | p :: ps =>
    match processPart (trimStr p) with
    | .error e => .error e
    | .ok is_ =>
      match processParts ps with
      | .error e => .error e
      | .ok rest => .ok (is_ ++ rest)

/-- Model of `Vec::dedup`: remove consecutive duplicates. -/
def dedupConsec : List Nat → List Nat
  | [] => []
  | [a] => [a]
  | a :: b :: t =>
    if a = b then dedupConsec (b :: t) else a :: dedupConsec (b :: t)

/-- `utils.rs::parse_selection` after the initial trim/lowercase.
  `indices.sort()` (a comparison sort by `≤` on `usize`) is modelled by
  `List.insertionSort (· ≤ ·)`: every comparison sort of naturals
  produces the same (unique) sorted permutation. -/
def parse_selection_core (t : Str) : Except WindowError Selection :=
  if t = ['a', 'l', 'l'] then .ok .All
  else
    match processParts (splitOnCh ',' t) with
    | .error e => .error e
    | .ok idxs =>
      .ok (.Indices (dedupConsec (List.insertionSort (· ≤ ·) idxs)))

/-- `utils.rs::parse_selection`. -/
def parse_selection (s : Str) : Except WindowError Selection :=
  parse_selection_core (lowerStr (trimStr s))

/-- `utils.rs::parse_single_position_order`: expects
  `<expected_prefix>1` or `<expected_prefix>-1`. -/
def parse_single_position_order (part : Str) (expected : Char) :
    Except WindowError Int :=
  if part.length < 2 ∨ ¬ startsWithCh part expected then
    .error .InvalidPositionSortFormat
  else if part.drop 1 = ['1'] then .ok 1
  else if part.drop 1 = ['-', '1'] then .ok (-1)
  else .error .InvalidSortOrder

/-- `utils.rs::parse_position_sort` after the initial trim/lowercase. -/
def parse_position_sort_core (t : Str) :
    Except WindowError (Option PositionSort) :=
  if t = [] then .ok none
  else if t.contains '|' then
    match splitOnCh '|' t with
    | [a, b] =>
      match parse_single_position_order (trimStr a) 'x' with
      | .error e => .error e
      | .ok xo =>
        match parse_single_position_order (trimStr b) 'y' with
        | .error e => .error e
        | .ok yo => .ok (some (.XY xo yo))
    | _ => .error .InvalidPositionSortFormat
  else if startsWithCh t 'x' then
    match parse_single_position_order t 'x' with
    | .error e => .error e
    | .ok o => .ok (some (.X o))
  else if startsWithCh t 'y' then
    match parse_single_position_order t 'y' with
    | .error e => .error e
    | .ok o => .ok (some (.Y o))
  else
    .error .InvalidPositionSortFormat

/-- `utils.rs::parse_position_sort`. -/
def parse_position_sort (s : Str) : Except WindowError (Option PositionSort) :=
  parse_position_sort_core (lowerStr (trimStr s))

/-- One substring-criterion block of `utils.rs::matches_criteria` (the
  four blocks are textually identical up to the field): pass unless the
  criterion is present, non-empty, and not contained case-insensitively
  in the field value. -/
def subfieldPass (v : Str) (fo : Option Str) : Bool :=
  match fo with
  | some f => f.isEmpty || containsSub (lowerStr v) (lowerStr f)
  | none => true

/-- `utils.rs::matches_criteria`: logical AND of the early-return
  checks, in source order. -/
def matches_criteria (w : WindowInfo) (c : FilterCriteria) : Bool :=
  (match c.pid with
   | some p => w.pid == p
   | none => true) &&
  subfieldPass w.title c.title_contains &&
  subfieldPass w.class_name c.class_name_contains &&
  subfieldPass w.process_name c.process_name_contains &&
  subfieldPass w.process_file c.process_file_contains

/-! ## `src/models.rs` (sort engine) -/

/-- Three-way comparison of naturals (model of `Ord::cmp` on `u32`/`usize`). -/
def cmpNat (a b : Nat) : Ordering :=
  if a < b then .lt else if a = b then .eq else .gt

/-- Three-way comparison of integers (model of `Ord::cmp` on `i32`). -/
def cmpInt (a b : Int) : Ordering :=
  if a < b then .lt else if a = b then .eq else .gt

/-- Three-way comparison of characters by scalar value (Rust `char` order;
  lexicographic over these equals Rust's byte-wise `str` order). -/
def cmpChar (a b : Char) : Ordering :=
  cmpNat a.toNat b.toNat

/-- Lexicographic three-way comparison of strings (model of
  `Ord::cmp` on `String`). -/
def cmpStr : Str → Str → Ordering
  | [], [] => .eq
  | [], _ :: _ => .lt
  | _ :: _, [] => .gt
  | a :: as_, b :: bs => (cmpChar a b).then (cmpStr as_ bs)

/-- `models.rs::WindowSorter::compare_positions`. -/
def compare_positions (a b : WindowInfo) (ps : PositionSort) : Ordering :=
  match ps with
  | .X o =>
    let ord := cmpInt a.position.x b.position.x
    if o < 0 then ord.swap else ord
  | .Y o =>
    let ord := cmpInt a.position.y b.position.y
    if o < 0 then ord.swap else ord
  | .XY xo yo =>
    let xord := cmpInt a.position.x b.position.x
    if xord ≠ .eq then (if xo < 0 then xord.swap else xord)
    else
      let yord := cmpInt a.position.y b.position.y
      if yo < 0 then yord.swap else yord

/-- The comparator closure inside `models.rs::WindowSorter::sort_windows`:
  pid step, then title step, then position step, each early-returning on a
  non-equal result. -/
def sortCmp (c : SortCriteria) (a b : WindowInfo) : Ordering :=
  let o1 :=
    if c.pid ≠ 0 then
      let o := cmpNat a.pid b.pid
      if c.pid < 0 then o.swap else o
    else .eq
  if o1 ≠ .eq then o1
  else
    let o2 :=
      if c.title ≠ 0 then
        let o := cmpStr (lowerStr a.title) (lowerStr b.title)
        if c.title < 0 then o.swap else o
      else .eq
    if o2 ≠ .eq then o2
    else
      match c.position with
      | some ps => compare_positions a b ps
      | none => .eq

/-- `models.rs::WindowSorter::sort_windows`: no-op when every key is
  inactive, otherwise a stable sort (`slice::sort_by`, modelled by
  `List.mergeSort`) by the comparator closure. -/
def sort_windows (ws : List WindowInfo) (c : SortCriteria) : List WindowInfo :=
  if c.pid = 0 ∧ c.title = 0 ∧ c.position = none then ws
  else ws.mergeSort (fun a b => (sortCmp c a b).isLE)

/-- `models.rs::WindowSorter::filter_and_sort_windows`. -/
def filter_and_sort_windows (ws : List WindowInfo) (c : FilterCriteria)
    (sc : SortCriteria) : List WindowInfo :=
  sort_windows (ws.filter (fun w => matches_criteria w c)) sc

/-! ## `src/enumerator.rs` -/

/-- Raw per-window facts supplied by the Window Source (the Win32 calls
  consumed by `enumerator.rs`): visibility and parenthood (checked by
  `enum_windows_proc`), title, class name, owning pid
  (`GetWindowThreadProcessId`, 0 when unavailable), the result of
  `get_process_info` when it would be attempted (`none` models failure),
  and the window rectangle as (left, top, right, bottom) (`none` models
  `GetWindowRect` failure). -/
structure RawWindow where
  hwnd : Int
  visible : Bool
  parent : Int
  title : Str
  class_name : Str
  pid : Nat
  procInfo : Option (Str × Str)
  rect : Option (Int × Int × Int × Int)
  deriving DecidableEq

/-- The inclusion test in `enumerator.rs::enum_windows_proc`:
  `IsWindowVisible(hwnd) && GetParent(hwnd).0 == 0`. -/
def includeRaw (r : RawWindow) : Bool :=
  r.visible && r.parent == 0

/-- The record built by `enumerator.rs::get_window_info` (index still 0):
  process name/path default to empty when pid is 0 or when
  `get_process_info` failed (`unwrap_or_default`); geometry defaults to
  all-zero on `GetWindowRect` failure. -/
def windowInfoOf (r : RawWindow) : WindowInfo :=
  let pnpf := if r.pid > 0 then r.procInfo.getD ([], []) else ([], [])
  let pos : WindowPosition :=
    match r.rect with
    | some (l, t, rt, b) => { x := l, y := t, width := rt - l, height := b - t }
    | none => { x := 0, y := 0, width := 0, height := 0 }
  { hwnd := r.hwnd, pid := r.pid, title := r.title,
    class_name := r.class_name, process_name := pnpf.1,
    process_file := pnpf.2, index := 0, position := pos }

/-- `enumerator.rs::get_window_info`: always returns `Ok` (every
  metadata failure is recovered locally with a default). -/
def get_window_info (r : RawWindow) : Except WindowError WindowInfo :=
  .ok (windowInfoOf r)

/-- The accumulation performed by `enumerator.rs::enum_windows_proc`
  over the delivered windows: each visible top-level window is pushed
  with temporary index `len + 1`. -/
def pushLoop (acc : List WindowInfo) : List RawWindow → List WindowInfo
  | [] => acc
  | r :: rs =>
    if includeRaw r then
      pushLoop (acc ++ [{ windowInfoOf r with index := acc.length + 1 }]) rs
    else
      pushLoop acc rs

/-- The index-assignment loop at the end of
  `enumerator.rs::enumerate_all_windows`: position-based 1-based
  indices. -/
def assignIndices : List WindowInfo → Nat → List WindowInfo
  | [], _ => []
  | w :: ws, i => { w with index := i } :: assignIndices ws (i + 1)

/-- `enumerator.rs::enumerate_all_windows`.  The previous window list is
  cleared first (`self.windows.clear()`), the Window Source delivers
  `delivered` into the callback, and `failure` is the terminal outcome of
  `EnumWindows` (`some code` models a platform enumeration failure).  On
  failure the error propagates (`?`) with the windows collected so far
  still in the accumulator; on success indices `1..N` are assigned.
  Returns the final window list and the call's result. -/
def enumerate_all_windows (prev : List WindowInfo)
    (delivered : List RawWindow) (failure : Option Nat) :
    List WindowInfo × Except WindowError Unit :=
  let _ := prev
  let collected := pushLoop [] delivered
  match failure with
  | some code => (collected, .error (.WindowsApiError code))
  | none => (assignIndices collected 1, .ok ())

/-- `enumerator.rs::filter_windows`. -/
def filter_windows (ws : List WindowInfo) (c : FilterCriteria) :
    List WindowInfo :=
  ws.filter (fun w => matches_criteria w c)

/-- `enumerator.rs::filter_windows_with_selection`. -/
def filter_windows_with_selection (ws : List WindowInfo)
    (c : FilterCriteria) (sel : Selection) : List WindowInfo :=
  let filtered := filter_windows ws c
  match sel with
  | .All => filtered
  | .Indices idxs => filtered.filter (fun w => idxs.contains w.index)

/-- `enumerator.rs::filter_sort_windows_with_selection`. -/
def filter_sort_windows_with_selection (ws : List WindowInfo)
    (c : FilterCriteria) (sc : SortCriteria) (sel : Selection) :
    List WindowInfo :=
  let filtered := filter_and_sort_windows ws c sc
  match sel with
  | .All => filtered
  | .Indices idxs => filtered.filter (fun w => idxs.contains w.index)

/-! ## Lemmas about the string primitives -/

theorem leadsStr_iff : ∀ (p s : Str), leadsStr p s = true ↔ ∃ rest, s = p ++ rest := by
  intro p
  induction p with
  | nil => intro s; simp [leadsStr]
  | cons a as_ ih =>
    intro s
    cases s with
    | nil => simp [leadsStr]
    | cons b bs =>
      simp only [leadsStr, Bool.and_eq_true, decide_eq_true_eq, ih,
        List.cons_append, List.cons.injEq]
      constructor
      · rintro ⟨rfl, rest, rfl⟩; exact ⟨rest, rfl, rfl⟩
      · rintro ⟨rest, rfl, rfl⟩; exact ⟨rfl, rest, rfl⟩

theorem containsSub_iff : ∀ (hay sub : Str),
    containsSub hay sub = true ↔ ∃ pre post, hay = pre ++ sub ++ post := by
  intro hay
  induction hay with
  | nil =>
    intro sub
    simp only [containsSub, List.isEmpty_iff]
    constructor
    · rintro rfl; exact ⟨[], [], rfl⟩
    · rintro ⟨pre, post, h⟩
      rcases List.append_eq_nil.mp h.symm with ⟨h1, h2⟩
      exact (List.append_eq_nil.mp h1).2
  | cons h t ih =>
    intro sub
    simp only [containsSub, Bool.or_eq_true, leadsStr_iff, ih]
    constructor
    · rintro (⟨rest, he⟩ | ⟨pre, post, he⟩)
      · exact ⟨[], rest, by simpa using he⟩
      · exact ⟨h :: pre, post, by simp [he]⟩
    · rintro ⟨pre, post, he⟩
      cases pre with
      | nil => exact Or.inl ⟨post, by simpa using he⟩
      | cons p ps =>
        simp only [List.cons_append, List.cons.injEq] at he
        exact Or.inr ⟨ps, post, he.2⟩

theorem subfieldPass_iff (v : Str) (fo : Option Str) :
    subfieldPass v fo = true ↔
      ∀ f, fo = some f → f ≠ [] →
        ∃ pre post, lowerStr v = pre ++ lowerStr f ++ post := by
  cases fo with
  | none => simp [subfieldPass]
  | some f =>
    cases f with
    | nil => simp [subfieldPass]
    | cons c cs =>
      simp [subfieldPass, containsSub_iff]

/-! ## C5: filter-engine characterization -/

/-- C5: for every record and every filter criteria, `matches_criteria`
  returns `true` iff every present and non-empty criterion holds: exact
  equality on the owning process id, and case-insensitive non-anchored
  substring containment on title, class name, process name, and process
  path; a present-but-empty substring criterion rejects nothing (the
  `f ≠ []` guard), and no other window field participates (second
  conjunct: the result only depends on pid, title, class name, process
  name and process path). -/
theorem c5_filter_matches (w : WindowInfo) (c : FilterCriteria) :
    (matches_criteria w c = true ↔
      ((∀ p, c.pid = some p → w.pid = p) ∧
       (∀ f, c.title_contains = some f → f ≠ [] →
          ∃ pre post, lowerStr w.title = pre ++ lowerStr f ++ post) ∧
       (∀ f, c.class_name_contains = some f → f ≠ [] →
          ∃ pre post, lowerStr w.class_name = pre ++ lowerStr f ++ post) ∧
       (∀ f, c.process_name_contains = some f → f ≠ [] →
          ∃ pre post, lowerStr w.process_name = pre ++ lowerStr f ++ post) ∧
       (∀ f, c.process_file_contains = some f → f ≠ [] →
          ∃ pre post, lowerStr w.process_file = pre ++ lowerStr f ++ post))) ∧
    (∀ w' : WindowInfo, w.pid = w'.pid → w.title = w'.title →
       w.class_name = w'.class_name → w.process_name = w'.process_name →
       w.process_file = w'.process_file →
       matches_criteria w c = matches_criteria w' c) := by
  constructor
  · simp only [matches_criteria, Bool.and_eq_true, subfieldPass_iff]
    constructor
    · rintro ⟨⟨⟨⟨hp, ht⟩, hc⟩, hn⟩, hf⟩
      refine ⟨?_, ht, hc, hn, hf⟩
      intro p hp'
      rw [hp'] at hp
      simpa using hp
    · rintro ⟨hp, ht, hc, hn, hf⟩
      refine ⟨⟨⟨⟨?_, ht⟩, hc⟩, hn⟩, hf⟩
      cases hcp : c.pid with
      | none => simp
      | some p => simpa using hp p hcp
  · intro w' h1 h2 h3 h4 h5
    simp only [matches_criteria, h1, h2, h3, h4, h5]

/-- Witness for C5 at concrete inputs: the iff direction produces the
  substring decomposition for a matching record, and field-irrelevance
  holds across records differing only in handle, index and position. -/
theorem c5_filter_matches_witness :
    (∃ pre post,
        lowerStr "chrome - tab".data = pre ++ lowerStr "CHROME".data ++ post) ∧
    (matches_criteria
        { hwnd := 1, pid := 7, title := "chrome - tab".data, class_name := [],
          process_name := [], process_file := [], index := 2,
          position := ⟨0, 0, 0, 0⟩ }
        { title_contains := some "CHROME".data } =
      matches_criteria
        { hwnd := 99, pid := 7, title := "chrome - tab".data, class_name := [],
          process_name := [], process_file := [], index := 5,
          position := ⟨3, 4, 5, 6⟩ }
        { title_contains := some "CHROME".data }) := by
  have h := c5_filter_matches
    { hwnd := 1, pid := 7, title := "chrome - tab".data, class_name := [],
      process_name := [], process_file := [], index := 2,
      position := ⟨0, 0, 0, 0⟩ }
    { title_contains := some "CHROME".data }
  exact ⟨(h.1.mp (by decide)).2.1 "CHROME".data rfl (by decide),
         h.2 _ rfl rfl rfl rfl rfl⟩

/-! ## Lemmas about splitting and the selection parser -/

theorem splitOnCh_ne_nil (sep : Char) : ∀ t : Str, splitOnCh sep t ≠ [] := by
  intro t
  cases t with
  | nil => simp [splitOnCh]
  | cons c rest =>
    simp only [splitOnCh]
    cases splitOnCh sep rest with
    | nil => simp
    | cons h t2 =>
      by_cases hc : c = sep <;> simp [hc]

theorem splitOnCh_of_not_contains (sep : Char) :
    ∀ t : Str, t.contains sep = false → splitOnCh sep t = [t] := by
  intro t
  induction t with
  | nil => intro _; rfl
  | cons c rest ih =>
    intro h
    simp only [List.contains_cons, Bool.or_eq_false_iff, beq_eq_false_iff_ne,
      ne_eq] at h
    have hcs : ¬ c = sep := fun hh => h.1 hh.symm
    simp [splitOnCh, ih h.2, hcs]

theorem splitOnCh_append_sep (sep : Char) :
    ∀ t1 t2 : Str, t1.contains sep = false →
      splitOnCh sep (t1 ++ sep :: t2) = t1 :: splitOnCh sep t2 := by
  intro t1
  induction t1 with
  | nil =>
    intro t2 _
    simp only [List.nil_append, splitOnCh]
    cases hs : splitOnCh sep t2 with
    | nil => exact absurd hs (splitOnCh_ne_nil sep t2)
    | cons h t => simp
  | cons c rest ih =>
    intro t2 h
    simp only [List.contains_cons, Bool.or_eq_false_iff, beq_eq_false_iff_ne,
      ne_eq] at h
    have hcs : ¬ c = sep := fun hh => h.1 hh.symm
    simp [splitOnCh, ih t2 h.2, hcs]

theorem contains_append_sep (sep : Char) (t1 t2 : Str) :
    (t1 ++ sep :: t2).contains sep = true := by
  have hmem : sep ∈ t1 ++ sep :: t2 :=
    List.mem_append_right _ (List.mem_cons_self _ _)
  simp [List.contains, List.elem_iff, hmem]

theorem mem_dedupConsec : ∀ (l : List Nat) (x : Nat), x ∈ dedupConsec l → x ∈ l := by
  intro l
  induction l with
  | nil => simp [dedupConsec]
  | cons a t ih =>
    cases t with
    | nil => simp [dedupConsec]
    | cons b t2 =>
      intro x
      simp only [dedupConsec]
      split
      · intro h
        exact List.mem_cons_of_mem a (ih x h)
      · intro h
        rcases List.mem_cons.mp h with rfl | h2
        · exact List.mem_cons_self _ _
        · exact List.mem_cons_of_mem a (ih x h2)

theorem pairwise_lt_dedupConsec :
    ∀ l : List Nat, l.Pairwise (· ≤ ·) → (dedupConsec l).Pairwise (· < ·) := by
  intro l
  induction l with
  | nil => intro _; simp [dedupConsec]
  | cons a t ih =>
    cases t with
    | nil => intro _; simp [dedupConsec]
    | cons b t2 =>
      intro hp
      have hp' : (b :: t2).Pairwise (· ≤ ·) := hp.of_cons
      have hd := ih hp'
      simp only [dedupConsec]
      split
      · exact hd
      · refine List.Pairwise.cons ?_ hd
        intro x hx
        have hxmem := mem_dedupConsec _ x hx
        have hab : a ≤ b := (List.pairwise_cons.mp hp).1 b (List.mem_cons_self _ _)
        have hanb : a ≠ b := by assumption
        rcases List.mem_cons.mp hxmem with rfl | hxt
        · omega
        · have hbx : b ≤ x := (List.pairwise_cons.mp hp').1 x hxt
          omega

/-- The first error in the token loop aborts the whole parse. -/
theorem processParts_first_error :
    ∀ (pre : List Str) (p : Str) (post : List Str) (e : WindowError),
      (∀ q ∈ pre, ∃ l, processPart (trimStr q) = .ok l) →
      processPart (trimStr p) = .error e →
      processParts (pre ++ p :: post) = .error e := by
  intro pre
  induction pre with
  | nil =>
    intro p post e _ hp
    simp only [List.nil_append, processParts, hp]
  | cons q qs ih =>
    intro p post e hok hp
    obtain ⟨l, hl⟩ := hok q (List.mem_cons_self _ _)
    have hrest := ih p post e (fun r hr => hok r (List.mem_cons_of_mem _ hr)) hp
    simp only [List.cons_append, processParts, hl, List.append_eq, hrest]

/-! ## C6: selection grammar, well-formed inputs -/

/-- C6: `"all"` (case-insensitive, whitespace-trimmed) parses to the
  `All` selection; a bare integer token contributes that single index; a
  `start-end` token contributes exactly the integers of the inclusive
  range `[start, end]` — no elements at all when `start > end`; and any
  successfully parsed explicit index set is strictly ascending, i.e.
  sorted with duplicates removed. -/
theorem c6_selection_grammar :
    (∀ s : Str, lowerStr (trimStr s) = ['a', 'l', 'l'] →
        parse_selection s = .ok .All) ∧
    (∀ (t : Str) (i : Nat), t.contains '-' = false →
        rustParseUsize t = some i → processPart t = .ok [i]) ∧
    (∀ (t1 t2 : Str) (a b : Nat),
        t1.contains '-' = false → t2.contains '-' = false →
        rustParseUsize (trimStr t1) = some a →
        rustParseUsize (trimStr t2) = some b →
        processPart (t1 ++ '-' :: t2) = .ok (List.range' a (b + 1 - a)) ∧
        (∀ k, k ∈ List.range' a (b + 1 - a) ↔ a ≤ k ∧ k ≤ b) ∧
        (b < a → processPart (t1 ++ '-' :: t2) = .ok [])) ∧
    (∀ (s : Str) (l : List Nat), parse_selection s = .ok (.Indices l) →
        l.Pairwise (· < ·)) := by
  refine ⟨?_, ?_, ?_, ?_⟩
  · intro s hs
    simp [parse_selection, hs, parse_selection_core]
  · intro t i hnc hp
    unfold processPart
    rw [hnc]
    simp [parse_index, hp]
  · intro t1 t2 a b h1 h2 hpa hpb
    have hsplit := splitOnCh_append_sep '-' t1 t2 h1
    rw [splitOnCh_of_not_contains '-' t2 h2] at hsplit
    have hc := contains_append_sep '-' t1 t2
    have hmain : processPart (t1 ++ '-' :: t2) = .ok (List.range' a (b + 1 - a)) := by
      unfold processPart
      rw [hc, hsplit]
      simp [parse_index, hpa, hpb]
    refine ⟨hmain, ?_, ?_⟩
    · intro k
      simp only [List.mem_range']
      constructor
      · rintro ⟨i, hi, rfl⟩; omega
      · intro hk; exact ⟨k - a, by omega, by omega⟩
    · intro hba
      rw [hmain]
      have : b + 1 - a = 0 := by omega
      rw [this]
      rfl
  · intro s l hok
    simp only [parse_selection, parse_selection_core] at hok
    split at hok
    · simp at hok
    · revert hok
      split
      · intro hok; simp at hok
      · intro hok
        simp only [Except.ok.injEq, Selection.Indices.injEq] at hok
        subst hok
        exact pairwise_lt_dedupConsec _
          (List.sorted_insertionSort (· ≤ ·) _)

/-- Witness for C6 at concrete inputs: `" ALL "` parses to `All`; the
  token `12` contributes `[12]`; the token `2-4` expands to `[2, 3, 4]`;
  the token `5-2` expands to nothing; `"3,1,2,1"` parses to the strictly
  ascending index set `[1, 2, 3]`. -/
theorem c6_selection_grammar_witness :
    parse_selection " ALL ".data = .ok .All ∧
    processPart "12".data = .ok [12] ∧
    processPart "2-4".data = .ok [2, 3, 4] ∧
    processPart "5-2".data = .ok [] ∧
    (parse_selection "3,1,2,1".data = .ok (.Indices [1, 2, 3]) ∧
      List.Pairwise (· < ·) [1, 2, 3]) := by
  have h := c6_selection_grammar
  refine ⟨h.1 _ (by decide), h.2.1 _ 12 (by decide) (by decide), ?_, ?_, ?_⟩
  · have h3 := h.2.2.1 ['2'] ['4'] 2 4 (by decide) (by decide) (by decide) (by decide)
    exact h3.1
  · have h3 := h.2.2.1 ['5'] ['2'] 5 2 (by decide) (by decide) (by decide) (by decide)
    exact h3.2.2 (by omega)
  · have hsel : parse_selection "3,1,2,1".data = .ok (.Indices [1, 2, 3]) := by decide
    exact ⟨hsel, h.2.2.2 _ _ hsel⟩

/-! ## C7: selection parser error behaviour -/

/-- C7: a token whose integer part does not parse as a non-negative
  integer fails with `InvalidIndex` (both as a bare token and on either
  side of a two-part range); a token splitting into more than two parts
  on `-` fails with `InvalidRange`; and parsing is all-or-nothing — the
  first failing token's error is the result of the whole parse, with no
  partial selection. -/
theorem c7_selection_errors :
    (∀ t : Str, t.contains '-' = true → (splitOnCh '-' t).length ≠ 2 →
        processPart t = .error .InvalidRange) ∧
    (∀ t : Str, t.contains '-' = false → rustParseUsize t = none →
        processPart t = .error .InvalidIndex) ∧
    (∀ (t a b : Str), t.contains '-' = true → splitOnCh '-' t = [a, b] →
        rustParseUsize (trimStr a) = none →
        processPart t = .error .InvalidIndex) ∧
    (∀ (t a b : Str) (st : Nat), t.contains '-' = true →
        splitOnCh '-' t = [a, b] →
        rustParseUsize (trimStr a) = some st →
        rustParseUsize (trimStr b) = none →
        processPart t = .error .InvalidIndex) ∧
    (∀ (pre : List Str) (p : Str) (post : List Str) (e : WindowError),
        (∀ q ∈ pre, ∃ l, processPart (trimStr q) = .ok l) →
        processPart (trimStr p) = .error e →
        processParts (pre ++ p :: post) = .error e) ∧
    (∀ (s : Str) (e : WindowError),
        lowerStr (trimStr s) ≠ ['a', 'l', 'l'] →
        processParts (splitOnCh ',' (lowerStr (trimStr s))) = .error e →
        parse_selection s = .error e) := by
  refine ⟨?_, ?_, ?_, ?_, processParts_first_error, ?_⟩
  · intro t hc hlen
    unfold processPart
    rw [hc]
    simp only [if_pos rfl]
    cases hs : splitOnCh '-' t with
    | nil => exact absurd hs (splitOnCh_ne_nil '-' t)
    | cons a l =>
      cases l with
      | nil => rfl
      | cons b l2 =>
        cases l2 with
        | nil => exact absurd (by rw [hs]; rfl) hlen
        | cons c l3 => rfl
  · intro t hc hp
    unfold processPart
    rw [hc]
    simp [parse_index, hp]
  · intro t a b hc hs hpa
    unfold processPart
    rw [hc, hs]
    simp [parse_index, hpa]
  · intro t a b st hc hs hpa hpb
    unfold processPart
    rw [hc, hs]
    simp [parse_index, hpa, hpb]
  · intro s e hne hpp
    unfold parse_selection parse_selection_core
    rw [if_neg hne, hpp]

/-- Witness for C7 at concrete inputs: `"1-2-3"` is the wrong range
  shape, `"x"` is a bad integer, `"4-x"` has a bad right endpoint, and in
  `"1,x,9"` the first failing token decides the whole result. -/
theorem c7_selection_errors_witness :
    processPart "1-2-3".data = .error .InvalidRange ∧
    processPart ['x'] = .error .InvalidIndex ∧
    processPart "4-x".data = .error .InvalidIndex ∧
    processParts [['1'], ['x'], ['9']] = .error .InvalidIndex ∧
    parse_selection "1,x,9".data = .error .InvalidIndex := by
  have h := c7_selection_errors
  refine ⟨h.1 _ (by decide) (by decide), h.2.1 _ (by decide) (by decide),
          h.2.2.2.1 _ ['4'] ['x'] 4 (by decide) (by decide) (by decide)
            (by decide), ?_, ?_⟩
  · have hfe := h.2.2.2.2.1 [['1']] ['x'] [['9']] .InvalidIndex
      (by
        intro q hq
        simp only [List.mem_singleton] at hq
        subst hq
        exact ⟨[1], by decide⟩)
      (by decide)
    exact hfe
  · exact h.2.2.2.2.2 _ .InvalidIndex (by decide) (by decide)

/-! ## C8: position-sort grammar -/

/-- C8: the position-sort parser maps a single coordinate token
  beginning with `x`/`y` and direction `1`/`-1` to the corresponding
  X-only/Y-only key with that direction, maps two `|`-joined coordinates
  (the first must start with `x`, the second with `y`) to the compound
  key with independent directions, maps the empty (trimmed) string to no
  position sort without error, fails with `InvalidPositionSortFormat` on
  any other shape, and fails with `InvalidSortOrder` when the shape is
  right but the direction is neither `1` nor `-1`. -/
theorem c8_position_sort_grammar :
    (∀ s : Str, lowerStr (trimStr s) = [] → parse_position_sort s = .ok none) ∧
    (∀ (s : Str) (c : Char) (r : Str), lowerStr (trimStr s) = c :: r →
        (c :: r).contains '|' = false → (c = 'x' ∨ c = 'y') →
        (r = ['1'] → parse_position_sort s =
            .ok (some (if c = 'x' then .X 1 else .Y 1))) ∧
        (r = ['-', '1'] → parse_position_sort s =
            .ok (some (if c = 'x' then .X (-1) else .Y (-1)))) ∧
        (r ≠ [] → r ≠ ['1'] → r ≠ ['-', '1'] →
            parse_position_sort s = .error .InvalidSortOrder) ∧
        (r = [] → parse_position_sort s = .error .InvalidPositionSortFormat)) ∧
    (∀ (s : Str) (c : Char) (r : Str), lowerStr (trimStr s) = c :: r →
        (c :: r).contains '|' = false → c ≠ 'x' → c ≠ 'y' →
        parse_position_sort s = .error .InvalidPositionSortFormat) ∧
    (∀ (s a b : Str), a.contains '|' = false → b.contains '|' = false →
        lowerStr (trimStr s) = a ++ '|' :: b →
        (∀ xo yo, parse_single_position_order (trimStr a) 'x' = .ok xo →
            parse_single_position_order (trimStr b) 'y' = .ok yo →
            parse_position_sort s = .ok (some (.XY xo yo))) ∧
        (∀ e, parse_single_position_order (trimStr a) 'x' = .error e →
            parse_position_sort s = .error e) ∧
        (∀ xo e, parse_single_position_order (trimStr a) 'x' = .ok xo →
            parse_single_position_order (trimStr b) 'y' = .error e →
            parse_position_sort s = .error e)) ∧
    (∀ s : Str, (lowerStr (trimStr s)).contains '|' = true →
        (splitOnCh '|' (lowerStr (trimStr s))).length ≠ 2 →
        parse_position_sort s = .error .InvalidPositionSortFormat) ∧
    (∀ (p : Str) (c : Char),
        (startsWithCh p c = false ∨ p.length < 2 →
            parse_single_position_order p c = .error .InvalidPositionSortFormat) ∧
        (startsWithCh p c = true → 2 ≤ p.length → p.drop 1 ≠ ['1'] →
            p.drop 1 ≠ ['-', '1'] →
            parse_single_position_order p c = .error .InvalidSortOrder) ∧
        (startsWithCh p c = true → p.drop 1 = ['1'] →
            parse_single_position_order p c = .ok 1) ∧
        (startsWithCh p c = true → p.drop 1 = ['-', '1'] →
            parse_single_position_order p c = .ok (-1))) := by
  have hpso : ∀ (p : Str) (c : Char),
      (startsWithCh p c = false ∨ p.length < 2 →
          parse_single_position_order p c = .error .InvalidPositionSortFormat) ∧
      (startsWithCh p c = true → 2 ≤ p.length → p.drop 1 ≠ ['1'] →
          p.drop 1 ≠ ['-', '1'] →
          parse_single_position_order p c = .error .InvalidSortOrder) ∧
      (startsWithCh p c = true → p.drop 1 = ['1'] →
          parse_single_position_order p c = .ok 1) ∧
      (startsWithCh p c = true → p.drop 1 = ['-', '1'] →
          parse_single_position_order p c = .ok (-1)) := by
    intro p c
    refine ⟨?_, ?_, ?_, ?_⟩
    · intro h
      unfold parse_single_position_order
      rcases h with h | h
      · rw [if_pos (Or.inr (by simp [h]))]
      · rw [if_pos (Or.inl h)]
    · intro hs hl h1 h2
      unfold parse_single_position_order
      rw [if_neg (by simp [hs]; omega), if_neg h1, if_neg h2]
    · intro hs h1
      have hl : 2 ≤ p.length := by
        have := congrArg List.length h1
        simp at this
        omega
      unfold parse_single_position_order
      rw [if_neg (by simp [hs]; omega), if_pos h1]
    · intro hs h1
      have hl : 2 ≤ p.length := by
        have := congrArg List.length h1
        simp at this
        omega
      unfold parse_single_position_order
      rw [if_neg (by simp [hs]; omega), if_neg (by rw [h1]; decide), if_pos h1]
  refine ⟨?_, ?_, ?_, ?_, ?_, hpso⟩
  · intro s hT
    unfold parse_position_sort
    rw [hT]
    rfl
  · intro s c r hT hnc hcxy
    have hcore : parse_position_sort s = parse_position_sort_core (c :: r) := by
      unfold parse_position_sort
      rw [hT]
    refine ⟨?_, ?_, ?_, ?_⟩
    · rintro rfl
      rcases hcxy with rfl | rfl <;>
        (rw [hcore]; unfold parse_position_sort_core; rw [hnc]) <;>
        simp [startsWithCh, parse_single_position_order]
    · rintro rfl
      rcases hcxy with rfl | rfl <;>
        (rw [hcore]; unfold parse_position_sort_core; rw [hnc]) <;>
        simp [startsWithCh, parse_single_position_order]
    · intro hr0 h1 h2
      have hso := (hpso (c :: r) c).2.1 (by simp [startsWithCh])
        (by cases r with
            | nil => exact absurd rfl hr0
            | cons a r2 => simp)
        (by simpa using h1) (by simpa using h2)
      rcases hcxy with rfl | rfl <;>
        (rw [hcore]; unfold parse_position_sort_core; rw [hnc]) <;>
        simp [startsWithCh, hso]
    · rintro rfl
      have hso := (hpso [c] c).1 (Or.inr (by simp))
      rcases hcxy with rfl | rfl <;>
        (rw [hcore]; unfold parse_position_sort_core; rw [hnc]) <;>
        simp [startsWithCh, hso]
  · intro s c r hT hnc hx hy
    have hcore : parse_position_sort s = parse_position_sort_core (c :: r) := by
      unfold parse_position_sort
      rw [hT]
    rw [hcore]
    unfold parse_position_sort_core
    rw [hnc]
    simp [startsWithCh, hx, hy]
  · intro s a b ha hb hT
    have hcore : parse_position_sort s = parse_position_sort_core (a ++ '|' :: b) := by
      unfold parse_position_sort
      rw [hT]
    have hsplit := splitOnCh_append_sep '|' a b ha
    rw [splitOnCh_of_not_contains '|' b hb] at hsplit
    have hc := contains_append_sep '|' a b
    have hcore2 : parse_position_sort_core (a ++ '|' :: b) =
        match parse_single_position_order (trimStr a) 'x' with
        | .error e => .error e
        | .ok xo =>
          match parse_single_position_order (trimStr b) 'y' with
          | .error e => .error e
          | .ok yo => .ok (some (.XY xo yo)) := by
      unfold parse_position_sort_core
      rw [if_neg (by simp), hc, hsplit]
      simp
    refine ⟨?_, ?_, ?_⟩
    · intro xo yo hxo hyo
      rw [hcore, hcore2, hxo, hyo]
    · intro e hxo
      rw [hcore, hcore2, hxo]
    · intro xo e hxo hyo
      rw [hcore, hcore2, hxo, hyo]
  · intro s hc hlen
    have hne : lowerStr (trimStr s) ≠ [] := by
      intro h
      rw [h] at hc
      exact absurd hc (by decide)
    unfold parse_position_sort parse_position_sort_core
    rw [if_neg hne, hc]
    simp only [if_pos rfl]
    cases hs : splitOnCh '|' (lowerStr (trimStr s)) with
    | nil => exact absurd hs (splitOnCh_ne_nil _ _)
    | cons a l =>
      cases l with
      | nil => rfl
      | cons b l2 =>
        cases l2 with
        | nil => exact absurd (by rw [hs]; rfl) hlen
        | cons c l3 => rfl

/-- Witness for C8 at concrete inputs: `"x1"`, `"y-1"`, `"x1|y1"`,
  `""`, `"x2"`, `"z1"`, `"x"` and `"x1|y1|x1"` exercise every branch of
  the grammar. -/
theorem c8_position_sort_grammar_witness :
    parse_position_sort "x1".data = .ok (some (.X 1)) ∧
    parse_position_sort "y-1".data = .ok (some (.Y (-1))) ∧
    parse_position_sort "x1|y1".data = .ok (some (.XY 1 1)) ∧
    parse_position_sort "".data = .ok none ∧
    parse_position_sort "x2".data = .error .InvalidSortOrder ∧
    parse_position_sort "z1".data = .error .InvalidPositionSortFormat ∧
    parse_position_sort ['x'] = .error .InvalidPositionSortFormat ∧
    parse_position_sort "x1|y1|x1".data = .error .InvalidPositionSortFormat := by
  have h := c8_position_sort_grammar
  have h1 := (h.2.1 "x1".data 'x' ['1'] (by decide) (by decide) (Or.inl rfl)).1 rfl
  have h2 := (h.2.1 "y-1".data 'y' ['-', '1'] (by decide) (by decide)
    (Or.inr rfl)).2.1 rfl
  have h3 := (h.2.2.2.1 "x1|y1".data "x1".data "y1".data (by decide) (by decide)
    (by decide)).1 1 1 (by decide) (by decide)
  have h5 := (h.2.1 "x2".data 'x' ['2'] (by decide) (by decide)
    (Or.inl rfl)).2.2.1 (by decide) (by decide) (by decide)
  have h6 := h.2.2.1 "z1".data 'z' ['1'] (by decide) (by decide) (by decide)
    (by decide)
  have h7 := (h.2.1 ['x'] 'x' [] (by decide) (by decide) (Or.inl rfl)).2.2.2 rfl
  have h8 := h.2.2.2.2.1 "x1|y1|x1".data (by decide) (by decide)
  exact ⟨by simpa using h1, by simpa using h2, h3, h.1 _ (by decide),
    h5, h6, h7, h8⟩

/-! ## C4: sort-engine comparator vs the spec's description

The following `spec…` definitions are written from the specification's
words (§4.3): a chain of three keys with fixed precedence
processId → title → position, each active key reversing its comparison
when its direction is negative, composed with `Ordering.then` so that an
unequal higher-precedence key decides; the compound position key
compares X first and Y only on X-ties, each with its own direction. -/

/-- Spec §4.3: reverse a comparison when the direction is descending. -/
def applyDir (d : Int) (o : Ordering) : Ordering :=
  if d < 0 then o.swap else o

/-- Spec §4.3 step 1: the processId key (`.eq` when inactive). -/
def specPidKey (c : SortCriteria) (a b : WindowInfo) : Ordering :=
  if c.pid = 0 then .eq else applyDir c.pid (cmpNat a.pid b.pid)

/-- Spec §4.3 step 2: the title key, lower-cased lexicographic
  (`.eq` when inactive). -/
def specTitleKey (c : SortCriteria) (a b : WindowInfo) : Ordering :=
  if c.title = 0 then .eq
  else applyDir c.title (cmpStr (lowerStr a.title) (lowerStr b.title))

/-- Spec §4.3 step 3: the position key; the compound key compares X
  first and Y only when X is equal, each direction independent. -/
def specPosKey (c : SortCriteria) (a b : WindowInfo) : Ordering :=
  match c.position with
  | none => .eq
  | some (.X d) => applyDir d (cmpInt a.position.x b.position.x)
  | some (.Y d) => applyDir d (cmpInt a.position.y b.position.y)
  | some (.XY dx dy) =>
    (applyDir dx (cmpInt a.position.x b.position.x)).then
      (applyDir dy (cmpInt a.position.y b.position.y))

/-- Spec §4.3: the whole comparator is the fixed-precedence
  lexicographic chain of the three keys. -/
def specCompare (c : SortCriteria) (a b : WindowInfo) : Ordering :=
  (specPidKey c a b).then ((specTitleKey c a b).then (specPosKey c a b))

theorem ite_chain3 (o1 o2 o3 : Ordering) :
    (if o1 ≠ .eq then o1 else if o2 ≠ .eq then o2 else o3) =
      o1.then (o2.then o3) := by
  cases o1 <;> cases o2 <;> simp [Ordering.then]

theorem sortCmp_eq_specCompare (c : SortCriteria) (a b : WindowInfo) :
    sortCmp c a b = specCompare c a b := by
  have e3 : (match c.position with
      | some ps => compare_positions a b ps
      | none => (.eq : Ordering)) = specPosKey c a b := by
    unfold specPosKey
    cases c.position with
    | none => rfl
    | some ps =>
      cases ps with
      | X d => rfl
      | Y d => rfl
      | XY dx dy =>
        show compare_positions a b (.XY dx dy) = _
        unfold compare_positions applyDir
        cases cmpInt a.position.x b.position.x <;>
          cases cmpInt a.position.y b.position.y <;>
          by_cases hdx : dx < 0 <;> by_cases hdy : dy < 0 <;>
          simp [hdx, hdy, Ordering.then, Ordering.swap]
  show (if (if c.pid ≠ 0 then
              (let o := cmpNat a.pid b.pid
               if c.pid < 0 then o.swap else o) else .eq) ≠ .eq then _
        else _) = _
  rw [ite_chain3]
  unfold specCompare specPidKey specTitleKey applyDir
  rw [← e3]
  by_cases hp : c.pid = 0 <;> by_cases ht : c.title = 0 <;> simp [hp, ht]

/-- C4: the comparator equals the spec's fixed-precedence chain
  processId → title (lower-cased lexicographic) → position, where each
  active key's direction independently reverses its comparison, an
  unequal higher-precedence key decides (`Ordering.then`), the compound
  position key compares X first and Y only when X is equal with
  independent directions — and when every key is inactive the sort
  performs no reordering at all. -/
theorem c4_comparator_precedence :
    (∀ (c : SortCriteria) (a b : WindowInfo),
        sortCmp c a b = specCompare c a b) ∧
    (∀ (ws : List WindowInfo) (c : SortCriteria),
        c.pid = 0 → c.title = 0 → c.position = none →
        sort_windows ws c = ws) := by
  refine ⟨sortCmp_eq_specCompare, ?_⟩
  intro ws c h1 h2 h3
  unfold sort_windows
  rw [if_pos ⟨h1, h2, h3⟩]

/-- Witness for C4 at concrete inputs: the comparator equality at a
  concrete pair and criteria, and the identity pass for all-inactive
  criteria on a concrete list. -/
theorem c4_comparator_precedence_witness :
    (sortCmp { pid := 1, title := -1, position := some (.XY 1 (-1)) }
        { hwnd := 1, pid := 4, title := "b".data, class_name := [],
          process_name := [], process_file := [], index := 1,
          position := ⟨1, 2, 0, 0⟩ }
        { hwnd := 2, pid := 4, title := "a".data, class_name := [],
          process_name := [], process_file := [], index := 2,
          position := ⟨1, 9, 0, 0⟩ } =
      specCompare { pid := 1, title := -1, position := some (.XY 1 (-1)) }
        { hwnd := 1, pid := 4, title := "b".data, class_name := [],
          process_name := [], process_file := [], index := 1,
          position := ⟨1, 2, 0, 0⟩ }
        { hwnd := 2, pid := 4, title := "a".data, class_name := [],
          process_name := [], process_file := [], index := 2,
          position := ⟨1, 9, 0, 0⟩ }) ∧
    sort_windows
      [{ hwnd := 1, pid := 4, title := "b".data, class_name := [],
         process_name := [], process_file := [], index := 1,
         position := ⟨1, 2, 0, 0⟩ },
       { hwnd := 2, pid := 3, title := "a".data, class_name := [],
         process_name := [], process_file := [], index := 2,
         position := ⟨1, 9, 0, 0⟩ }] {} =
      [{ hwnd := 1, pid := 4, title := "b".data, class_name := [],
         process_name := [], process_file := [], index := 1,
         position := ⟨1, 2, 0, 0⟩ },
       { hwnd := 2, pid := 3, title := "a".data, class_name := [],
         process_name := [], process_file := [], index := 2,
         position := ⟨1, 9, 0, 0⟩ }] :=
  ⟨c4_comparator_precedence.1 _ _ _,
   c4_comparator_precedence.2 _ _ rfl rfl rfl⟩

/-! ## Lawfulness of the comparator (for stability of the stable sort) -/

theorem then_eq_eq {o p : Ordering} : o.then p = .eq ↔ o = .eq ∧ p = .eq := by
  cases o <;> simp [Ordering.then]

theorem cmpNat_swap (x y : Nat) : cmpNat x y = (cmpNat y x).swap := by
  unfold cmpNat
  split_ifs <;> first | rfl | (exfalso; omega)

theorem cmpNat_eq_imp {x y : Nat} (h : cmpNat x y = .eq) : x = y := by
  unfold cmpNat at h
  split_ifs at h
  all_goals simp_all

theorem cmpNat_lt_trans {x y z : Nat} (h1 : cmpNat x y = .lt)
    (h2 : cmpNat y z = .lt) : cmpNat x z = .lt := by
  unfold cmpNat at h1 h2 ⊢
  split_ifs at h1 h2 ⊢ <;> simp_all <;> omega

theorem cmpNat_refl (x : Nat) : cmpNat x x = .eq := by
  unfold cmpNat
  split_ifs <;> simp_all

theorem cmpInt_swap (x y : Int) : cmpInt x y = (cmpInt y x).swap := by
  unfold cmpInt
  split_ifs <;> first | rfl | (exfalso; omega)

theorem cmpInt_eq_imp {x y : Int} (h : cmpInt x y = .eq) : x = y := by
  unfold cmpInt at h
  split_ifs at h
  all_goals simp_all

theorem cmpInt_lt_trans {x y z : Int} (h1 : cmpInt x y = .lt)
    (h2 : cmpInt y z = .lt) : cmpInt x z = .lt := by
  unfold cmpInt at h1 h2 ⊢
  split_ifs at h1 h2 ⊢ <;> simp_all <;> omega

theorem cmpChar_swap (a b : Char) : cmpChar a b = (cmpChar b a).swap :=
  cmpNat_swap _ _

theorem cmpChar_eq_imp {a b : Char} (h : cmpChar a b = .eq) : a = b :=
  Char.ext (UInt32.ext (cmpNat_eq_imp h))

theorem cmpChar_lt_trans {a b c : Char} (h1 : cmpChar a b = .lt)
    (h2 : cmpChar b c = .lt) : cmpChar a c = .lt :=
  cmpNat_lt_trans h1 h2

theorem cmpStr_swap : ∀ x y : Str, cmpStr x y = (cmpStr y x).swap := by
  intro x
  induction x with
  | nil => intro y; cases y <;> rfl
  | cons a as_ ih =>
    intro y
    cases y with
    | nil => rfl
    | cons b bs =>
      show (cmpChar a b).then (cmpStr as_ bs) = _
      rw [cmpChar_swap a b, ih bs, ← Ordering.swap_then]
      rfl

theorem cmpStr_eq_imp : ∀ x y : Str, cmpStr x y = .eq → x = y := by
  intro x
  induction x with
  | nil =>
    intro y h
    cases y with
    | nil => rfl
    | cons b bs => simp [cmpStr] at h
  | cons a as_ ih =>
    intro y h
    cases y with
    | nil => simp [cmpStr] at h
    | cons b bs =>
      rw [show cmpStr (a :: as_) (b :: bs) =
          (cmpChar a b).then (cmpStr as_ bs) from rfl, then_eq_eq] at h
      rw [cmpChar_eq_imp h.1, ih bs h.2]

theorem cmpStr_lt_trans : ∀ x y z : Str,
    cmpStr x y = .lt → cmpStr y z = .lt → cmpStr x z = .lt := by
  intro x
  induction x with
  | nil =>
    intro y z hxy hyz
    cases z with
    | nil =>
      cases y with
      | nil => simp [cmpStr] at hyz
      | cons b bs => simp [cmpStr] at hyz
    | cons c cs => rfl
  | cons a as_ ih =>
    intro y z hxy hyz
    cases y with
    | nil => simp [cmpStr] at hxy
    | cons b bs =>
      cases z with
      | nil => simp [cmpStr] at hyz
      | cons c cs =>
        have hxy' : (cmpChar a b).then (cmpStr as_ bs) = .lt := hxy
        have hyz' : (cmpChar b c).then (cmpStr bs cs) = .lt := hyz
        show (cmpChar a c).then (cmpStr as_ cs) = .lt
        rcases e1 : cmpChar a b with _ | _ | _ <;> rw [e1] at hxy'
        · rcases e2 : cmpChar b c with _ | _ | _ <;> rw [e2] at hyz'
          · rw [cmpChar_lt_trans e1 e2]
            rfl
          · rw [← cmpChar_eq_imp e2, e1]
            rfl
          · simp [Ordering.then] at hyz'
        · rcases e2 : cmpChar b c with _ | _ | _ <;> rw [e2] at hyz'
          · rw [cmpChar_eq_imp e1, e2]
            rfl
          · have hac : cmpChar a c = .eq := by
              rw [cmpChar_eq_imp e1, ← cmpChar_eq_imp e2]
              exact cmpNat_refl _
            rw [hac]
            simpa [Ordering.then] using ih bs cs (by simpa using hxy') (by simpa using hyz')
          · simp [Ordering.then] at hyz'
        · simp [Ordering.then] at hxy'

/-- A comparator is lawful when it is swap-antisymmetric, ties are
  left-congruences, and the strict part is transitive — enough to make
  `(· ·).isLE` a total preorder. -/
structure KeyLawful {α : Type} (k : α → α → Ordering) : Prop where
  swap_eq : ∀ a b, k a b = (k b a).swap
  congr_left : ∀ a b x, k a b = .eq → k a x = k b x
  lt_trans : ∀ a b x, k a b = .lt → k b x = .lt → k a x = .lt

theorem KeyLawful.congr_right {α : Type} {k : α → α → Ordering}
    (hk : KeyLawful k) (a b x : α) (h : k a b = .eq) : k x a = k x b := by
  rw [hk.swap_eq x a, hk.congr_left a b x h, ← hk.swap_eq x b]

theorem keyLawful_const {α : Type} : KeyLawful (fun (_ _ : α) => Ordering.eq) :=
  ⟨fun _ _ => rfl, fun _ _ _ _ => rfl, fun _ _ _ h _ => nomatch h⟩

theorem keyLawful_of_cmp {α β : Type} (v : α → β) (c : β → β → Ordering)
    (hswap : ∀ x y, c x y = (c y x).swap)
    (heq : ∀ x y, c x y = .eq → x = y)
    (hlt : ∀ x y z, c x y = .lt → c y z = .lt → c x z = .lt) :
    KeyLawful (fun a b => c (v a) (v b)) :=
  ⟨fun _ _ => hswap _ _,
   fun a b x h => by rw [heq _ _ h],
   fun _ _ _ h1 h2 => hlt _ _ _ h1 h2⟩

theorem keyLawful_swap {α : Type} {k : α → α → Ordering} (hk : KeyLawful k) :
    KeyLawful (fun a b => (k a b).swap) := by
  refine ⟨?_, ?_, ?_⟩
  · intro a b
    rw [Ordering.swap_swap]
    exact (hk.swap_eq b a).symm
  · intro a b x h
    have heq : k a b = .eq := by
      have := congrArg Ordering.swap h
      rwa [Ordering.swap_swap] at this
    rw [hk.congr_left a b x heq]
  · intro a b x h1 h2
    have hba : k b a = .lt := by rw [hk.swap_eq b a]; exact h1
    have hxb : k x b = .lt := by rw [hk.swap_eq x b]; exact h2
    have hxa : k x a = .lt := hk.lt_trans x b a hxb hba
    rw [hk.swap_eq a x, hxa]
    rfl

theorem keyLawful_applyDir {α : Type} (d : Int) {k : α → α → Ordering}
    (hk : KeyLawful k) : KeyLawful (fun a b => applyDir d (k a b)) := by
  by_cases hd : d < 0
  · simpa [applyDir, hd] using keyLawful_swap hk
  · simpa [applyDir, hd] using hk

theorem keyLawful_then {α : Type} {k1 k2 : α → α → Ordering}
    (h1 : KeyLawful k1) (h2 : KeyLawful k2) :
    KeyLawful (fun a b => (k1 a b).then (k2 a b)) := by
  have split_then : ∀ o p : Ordering, o.then p = .lt →
      o = .lt ∨ (o = .eq ∧ p = .lt) := by
    intro o p h
    cases o <;> · simp [Ordering.then] at h ⊢ <;> simp [h]
  refine ⟨?_, ?_, ?_⟩
  · intro a b
    rw [Ordering.swap_then, ← h1.swap_eq, ← h2.swap_eq]
  · intro a b x h
    rw [then_eq_eq] at h
    rw [h1.congr_left a b x h.1, h2.congr_left a b x h.2]
  · intro a b x hab hbx
    rcases split_then _ _ hab with hA | ⟨hA, hA2⟩ <;>
      rcases split_then _ _ hbx with hB | ⟨hB, hB2⟩
    · rw [h1.lt_trans a b x hA hB]
      rfl
    · have hax : k1 a x = .lt := by rw [← h1.congr_right b x a hB]; exact hA
      rw [hax]
      rfl
    · have hax : k1 a x = .lt := by rw [h1.congr_left a b x hA]; exact hB
      rw [hax]
      rfl
    · have hax : k1 a x = .eq := by rw [h1.congr_left a b x hA]; exact hB
      have hax2 : k2 a x = .lt := h2.lt_trans a b x hA2 hB2
      rw [hax, hax2]
      rfl

theorem keyLawful_specPidKey (c : SortCriteria) : KeyLawful (specPidKey c) := by
  unfold specPidKey
  by_cases hp : c.pid = 0
  · simpa [hp] using keyLawful_const
  · simpa [hp] using keyLawful_applyDir c.pid
      (keyLawful_of_cmp (fun w : WindowInfo => w.pid) cmpNat cmpNat_swap
        (fun _ _ => cmpNat_eq_imp) (fun _ _ _ => cmpNat_lt_trans))

theorem keyLawful_specTitleKey (c : SortCriteria) : KeyLawful (specTitleKey c) := by
  unfold specTitleKey
  by_cases ht : c.title = 0
  · simpa [ht] using keyLawful_const
  · simpa [ht] using keyLawful_applyDir c.title
      (keyLawful_of_cmp (fun w : WindowInfo => lowerStr w.title) cmpStr
        cmpStr_swap cmpStr_eq_imp cmpStr_lt_trans)

theorem keyLawful_specPosKey (c : SortCriteria) : KeyLawful (specPosKey c) := by
  unfold specPosKey
  cases c.position with
  | none => exact keyLawful_const
  | some ps =>
    cases ps with
    | X d =>
      exact keyLawful_applyDir d
        (keyLawful_of_cmp (fun w : WindowInfo => w.position.x) cmpInt
          cmpInt_swap (fun _ _ => cmpInt_eq_imp) (fun _ _ _ => cmpInt_lt_trans))
    | Y d =>
      exact keyLawful_applyDir d
        (keyLawful_of_cmp (fun w : WindowInfo => w.position.y) cmpInt
          cmpInt_swap (fun _ _ => cmpInt_eq_imp) (fun _ _ _ => cmpInt_lt_trans))
    | XY dx dy =>
      exact keyLawful_then
        (keyLawful_applyDir dx
          (keyLawful_of_cmp (fun w : WindowInfo => w.position.x) cmpInt
            cmpInt_swap (fun _ _ => cmpInt_eq_imp) (fun _ _ _ => cmpInt_lt_trans)))
        (keyLawful_applyDir dy
          (keyLawful_of_cmp (fun w : WindowInfo => w.position.y) cmpInt
            cmpInt_swap (fun _ _ => cmpInt_eq_imp) (fun _ _ _ => cmpInt_lt_trans)))

theorem keyLawful_sortCmp (c : SortCriteria) : KeyLawful (sortCmp c) := by
  have h : sortCmp c = specCompare c :=
    funext fun a => funext fun b => sortCmp_eq_specCompare c a b
  rw [h]
  exact keyLawful_then (keyLawful_specPidKey c)
    (keyLawful_then (keyLawful_specTitleKey c) (keyLawful_specPosKey c))

theorem keyLawful_le_trans {α : Type} {k : α → α → Ordering}
    (hk : KeyLawful k) (x y z : α) (hxy : (k x y).isLE = true)
    (hyz : (k y z).isLE = true) : (k x z).isLE = true := by
  rcases e1 : k x y with _ | _ | _
  · rcases e2 : k y z with _ | _ | _
    · rw [hk.lt_trans x y z e1 e2]
      rfl
    · have h3 : k x z = .lt := by rw [← hk.congr_right y z x e2]; exact e1
      rw [h3]
      rfl
    · rw [e2] at hyz
      exact absurd hyz (by decide)
  · rcases e2 : k y z with _ | _ | _
    · have h3 : k x z = .lt := by rw [hk.congr_left x y z e1]; exact e2
      rw [h3]
      rfl
    · have h3 : k x z = .eq := by rw [hk.congr_left x y z e1]; exact e2
      rw [h3]
      rfl
    · rw [e2] at hyz
      exact absurd hyz (by decide)
  · rw [e1] at hxy
    exact absurd hxy (by decide)

theorem keyLawful_le_total {α : Type} {k : α → α → Ordering}
    (hk : KeyLawful k) (x y : α) :
    ((k x y).isLE || (k y x).isLE) = true := by
  rcases e1 : k x y with _ | _ | _
  · rfl
  · rfl
  · have h2 : k y x = .lt := by
      have hs := hk.swap_eq x y
      rw [e1] at hs
      rcases e2 : k y x with _ | _ | _ <;> rw [e2] at hs <;>
        first | rfl | exact absurd hs (by decide)
    rw [h2]
    rfl

/-! ## C10: stability of the sort -/

/-- C10: the sort is stable — two records that compare equal under the
  criteria's active keys (comparator result `.eq`) and appear in a given
  relative order in the input keep that relative order in the output of
  `sort_windows`. -/
theorem c10_sort_stability (crit : SortCriteria) (ws : List WindowInfo)
    (a b : WindowInfo) (heq : sortCmp crit a b = .eq)
    (hsub : [a, b].Sublist ws) :
    [a, b].Sublist (sort_windows ws crit) := by
  unfold sort_windows
  split
  · exact hsub
  · have hk := keyLawful_sortCmp crit
    exact List.pair_sublist_mergeSort
      (fun x y z => keyLawful_le_trans hk x y z)
      (fun x y => keyLawful_le_total hk x y)
      (by rw [heq]; rfl) hsub

/-- Witness for C10: two records tied under a pid-only sort keep their
  input order. -/
theorem c10_sort_stability_witness :
    [{ hwnd := 1, pid := 4, title := "b".data, class_name := [],
       process_name := [], process_file := [], index := 1,
       position := ⟨0, 0, 0, 0⟩ },
     { hwnd := 2, pid := 4, title := "a".data, class_name := [],
       process_name := [], process_file := [], index := 2,
       position := ⟨5, 5, 0, 0⟩ }].Sublist
      (sort_windows
        [{ hwnd := 1, pid := 4, title := "b".data, class_name := [],
           process_name := [], process_file := [], index := 1,
           position := ⟨0, 0, 0, 0⟩ },
         { hwnd := 2, pid := 4, title := "a".data, class_name := [],
           process_name := [], process_file := [], index := 2,
           position := ⟨5, 5, 0, 0⟩ }] { pid := 1 }) :=
  c10_sort_stability { pid := 1 } _ _ _ (by decide) (List.Sublist.refl _)

/-! ## C1: pipeline composition and index-based selection -/

theorem perm_sort_windows (ws : List WindowInfo) (c : SortCriteria) :
    (sort_windows ws c).Perm ws := by
  unfold sort_windows
  split
  · exact List.Perm.refl ws
  · exact List.mergeSort_perm ws _

theorem mem_sort_windows {w : WindowInfo} {ws : List WindowInfo}
    {c : SortCriteria} : w ∈ sort_windows ws c ↔ w ∈ ws :=
  (perm_sort_windows ws c).mem_iff

theorem eq_singleton_of_pairwise_index (l : List WindowInfo)
    (hp : l.Pairwise (fun u v => u.index ≠ v.index))
    (w : WindowInfo) (hall : ∀ x ∈ l, x = w) (hw : w ∈ l) : l = [w] := by
  cases l with
  | nil => cases hw
  | cons a t =>
    have ha : a = w := hall a (List.mem_cons_self _ _)
    subst ha
    cases t with
    | nil => rfl
    | cons b t2 =>
      have hab := (List.pairwise_cons.mp hp).1 b (List.mem_cons_self _ _)
      have hb : b = a := hall b (List.mem_cons_of_mem _ (List.mem_cons_self _ _))
      subst hb
      exact absurd rfl hab

/-- C1: the query pipeline applies filter, then sort, then selection
  (first conjunct), and explicit-index selection is resolved against
  each record's immutable `index` field, never against positions in the
  filtered/sorted list (membership characterization); for distinct-index
  snapshots, selecting index `k` returns exactly the record whose index
  equals `k` when that record matches the filter, and yields nothing for
  `k` otherwise — regardless of the sort criteria. -/
theorem c1_selection_by_index
    (ws : List WindowInfo) (c : FilterCriteria) (sc : SortCriteria) (k : Nat)
    (hnd : ws.Pairwise (fun u v => u.index ≠ v.index)) :
    (∀ sel, filter_sort_windows_with_selection ws c sc sel =
        (match sel with
         | .All => sort_windows (filter_windows ws c) sc
         | .Indices idxs =>
             (sort_windows (filter_windows ws c) sc).filter
               (fun w => idxs.contains w.index))) ∧
    (∀ (idxs : List Nat) (w : WindowInfo),
        w ∈ filter_sort_windows_with_selection ws c sc (.Indices idxs) ↔
          (w ∈ ws ∧ matches_criteria w c = true ∧ w.index ∈ idxs)) ∧
    (∀ w, w ∈ ws → w.index = k → matches_criteria w c = true →
        filter_sort_windows_with_selection ws c sc (.Indices [k]) = [w]) ∧
    ((∀ w, w ∈ ws → w.index = k → matches_criteria w c = false) →
        filter_sort_windows_with_selection ws c sc (.Indices [k]) = []) := by
  have hmem : ∀ (idxs : List Nat) (w : WindowInfo),
      w ∈ filter_sort_windows_with_selection ws c sc (.Indices idxs) ↔
        (w ∈ ws ∧ matches_criteria w c = true ∧ w.index ∈ idxs) := by
    intro idxs w
    show w ∈ (filter_and_sort_windows ws c sc).filter _ ↔ _
    rw [List.mem_filter]
    unfold filter_and_sort_windows
    rw [mem_sort_windows, List.mem_filter]
    simp [List.contains, List.elem_iff, and_assoc]
  have hpair_res : ∀ idxs : List Nat,
      (filter_sort_windows_with_selection ws c sc (.Indices idxs)).Pairwise
        (fun u v => u.index ≠ v.index) := by
    intro idxs
    have hp1 : (ws.filter (fun w => matches_criteria w c)).Pairwise
        (fun u v => u.index ≠ v.index) :=
      List.Pairwise.sublist (List.filter_sublist ws) hnd
    have hp2 : (sort_windows (ws.filter (fun w => matches_criteria w c))
        sc).Pairwise (fun u v => u.index ≠ v.index) :=
      (List.Perm.pairwise_iff (fun h => Ne.symm h)
        (perm_sort_windows _ _)).mpr hp1
    exact List.Pairwise.sublist (List.filter_sublist _) hp2
  refine ⟨?_, hmem, ?_, ?_⟩
  · intro sel
    cases sel <;> rfl
  · intro w hw hik hm
    have hwmem : w ∈ filter_sort_windows_with_selection ws c sc (.Indices [k]) :=
      (hmem [k] w).mpr ⟨hw, hm, by simp [hik]⟩
    have hall : ∀ x ∈ filter_sort_windows_with_selection ws c sc (.Indices [k]),
        x = w := by
      intro x hx
      have hx' := (hmem [k] x).mp hx
      have hxik : x.index = k := by simpa using hx'.2.2
      by_contra hne
      exact (hnd.forall (fun {u v} h => Ne.symm h) hx'.1 hw hne)
        (by rw [hxik, hik])
    exact eq_singleton_of_pairwise_index _ (hpair_res [k]) w hall hwmem
  · intro hall
    rw [List.eq_nil_iff_forall_not_mem]
    intro x hx
    have hx' := (hmem [k] x).mp hx
    have hxik : x.index = k := by simpa using hx'.2.2
    have := hall x hx'.1 hxik
    simp [hx'.2.1] at this

/-- Witness for C1: in a three-record snapshot only the `"chrome - tab"`
  record (index 2) survives a `"chrome"` title filter, so selecting
  index 2 returns exactly it while selecting index 1 returns nothing. -/
theorem c1_selection_by_index_witness :
    filter_sort_windows_with_selection
      [{ hwnd := 1, pid := 10, title := "Notepad".data, class_name := [],
         process_name := [], process_file := [], index := 1,
         position := ⟨0, 0, 0, 0⟩ },
       { hwnd := 2, pid := 20, title := "chrome - tab".data, class_name := [],
         process_name := [], process_file := [], index := 2,
         position := ⟨0, 0, 0, 0⟩ },
       { hwnd := 3, pid := 30, title := "Calculator".data, class_name := [],
         process_name := [], process_file := [], index := 3,
         position := ⟨0, 0, 0, 0⟩ }]
      { title_contains := some "chrome".data } {} (.Indices [2]) =
      [{ hwnd := 2, pid := 20, title := "chrome - tab".data, class_name := [],
         process_name := [], process_file := [], index := 2,
         position := ⟨0, 0, 0, 0⟩ }] ∧
    filter_sort_windows_with_selection
      [{ hwnd := 1, pid := 10, title := "Notepad".data, class_name := [],
         process_name := [], process_file := [], index := 1,
         position := ⟨0, 0, 0, 0⟩ },
       { hwnd := 2, pid := 20, title := "chrome - tab".data, class_name := [],
         process_name := [], process_file := [], index := 2,
         position := ⟨0, 0, 0, 0⟩ },
       { hwnd := 3, pid := 30, title := "Calculator".data, class_name := [],
         process_name := [], process_file := [], index := 3,
         position := ⟨0, 0, 0, 0⟩ }]
      { title_contains := some "chrome".data } {} (.Indices [1]) = [] := by
  constructor
  · exact (c1_selection_by_index _ _ {} 2 (by decide)).2.2.1 _ (by decide) rfl
      (by decide)
  · exact (c1_selection_by_index _ _ {} 1 (by decide)).2.2.2 (by decide)

/-! ## Snapshot-builder lemmas (C2, C3, C9) -/

/-- Erase the (mutable-at-build-time) index field, leaving the captured
  per-window content. -/
def stripIndex (w : WindowInfo) : WindowInfo := { w with index := 0 }

theorem assignIndices_map_index : ∀ (ws : List WindowInfo) (i : Nat),
    (assignIndices ws i).map (fun w => w.index) = List.range' i ws.length := by
  intro ws
  induction ws with
  | nil => intro i; rfl
  | cons w t ih =>
    intro i
    show i :: (assignIndices t (i + 1)).map (fun w => w.index) =
      List.range' i (t.length + 1)
    rw [ih (i + 1)]
    rfl

theorem assignIndices_strip : ∀ (ws : List WindowInfo) (i : Nat),
    (assignIndices ws i).map stripIndex = ws.map stripIndex := by
  intro ws
  induction ws with
  | nil => intro i; rfl
  | cons w t ih =>
    intro i
    show stripIndex { w with index := i } :: (assignIndices t (i + 1)).map stripIndex = _
    rw [ih (i + 1)]
    rfl

theorem assignIndices_length (ws : List WindowInfo) (i : Nat) :
    (assignIndices ws i).length = ws.length := by
  have h := congrArg List.length (assignIndices_strip ws i)
  simpa using h

theorem pushLoop_strip : ∀ (d : List RawWindow) (acc : List WindowInfo),
    (pushLoop acc d).map stripIndex =
      acc.map stripIndex ++ (d.filter includeRaw).map windowInfoOf := by
  intro d
  induction d with
  | nil => intro acc; simp [pushLoop]
  | cons r rs ih =>
    intro acc
    by_cases hr : includeRaw r
    · have hstrip : stripIndex { windowInfoOf r with index := acc.length + 1 } =
          windowInfoOf r := rfl
      simp [pushLoop, hr, ih, List.filter_cons, hstrip]
    · simp [pushLoop, hr, ih, List.filter_cons]

theorem pushLoop_length (d : List RawWindow) (acc : List WindowInfo) :
    (pushLoop acc d).length = acc.length + (d.filter includeRaw).length := by
  have h := congrArg List.length (pushLoop_strip d acc)
  simpa using h

theorem mem_of_mem_fsws {ws : List WindowInfo} {c : FilterCriteria}
    {sc : SortCriteria} {sel : Selection} {w : WindowInfo}
    (hw : w ∈ filter_sort_windows_with_selection ws c sc sel) : w ∈ ws := by
  cases sel with
  | All =>
    have h : w ∈ sort_windows (ws.filter (fun w => matches_criteria w c)) sc := hw
    exact (List.mem_filter.mp (mem_sort_windows.mp h)).1
  | Indices idxs =>
    have h0 := (List.mem_filter.mp hw).1
    exact (List.mem_filter.mp (mem_sort_windows.mp h0)).1

theorem mem_of_mem_fws {ws : List WindowInfo} {c : FilterCriteria}
    {sel : Selection} {w : WindowInfo}
    (hw : w ∈ filter_windows_with_selection ws c sel) : w ∈ ws := by
  cases sel with
  | All => exact (List.mem_filter.mp hw).1
  | Indices idxs =>
    exact (List.mem_filter.mp (List.mem_filter.mp hw).1).1

/-! ## C2: snapshot index invariant -/

/-- C2: a successful enumeration assigns the index fields `1..N`
  positionally (contiguous, ascending, no gaps or repeats), the records
  themselves are the included raw windows in Window Source delivery
  order, and the filter/sort/selection calls only ever return records of
  the snapshot itself — no call changes an index field or the snapshot's
  contents. -/
theorem c2_snapshot_indices (prev : List WindowInfo)
    (delivered : List RawWindow) :
    ((enumerate_all_windows prev delivered none).1).map (fun w => w.index) =
      List.range' 1 ((enumerate_all_windows prev delivered none).1).length ∧
    ((enumerate_all_windows prev delivered none).1).map stripIndex =
      (delivered.filter includeRaw).map windowInfoOf ∧
    (∀ (c : FilterCriteria) (sc : SortCriteria) (sel : Selection)
        (w : WindowInfo),
        w ∈ filter_sort_windows_with_selection
            (enumerate_all_windows prev delivered none).1 c sc sel →
        w ∈ (enumerate_all_windows prev delivered none).1) ∧
    (∀ (c : FilterCriteria) (sel : Selection) (w : WindowInfo),
        w ∈ filter_windows_with_selection
            (enumerate_all_windows prev delivered none).1 c sel →
        w ∈ (enumerate_all_windows prev delivered none).1) := by
  have hfst : (enumerate_all_windows prev delivered none).1 =
      assignIndices (pushLoop [] delivered) 1 := rfl
  refine ⟨?_, ?_, ?_, ?_⟩
  · rw [hfst, assignIndices_map_index, assignIndices_length]
  · rw [hfst, assignIndices_strip, pushLoop_strip]
    simp
  · intro c sc sel w hw
    exact mem_of_mem_fsws hw
  · intro c sel w hw
    exact mem_of_mem_fws hw

/-- Witness for C2: a two-window delivery (one of them invisible and
  excluded) yields index list `[1]`, and a record returned by the
  pipeline is a record of the snapshot. -/
theorem c2_snapshot_indices_witness :
    ((enumerate_all_windows []
        [{ hwnd := 5, visible := true, parent := 0, title := "a".data,
           class_name := [], pid := 3, procInfo := none, rect := none },
         { hwnd := 6, visible := false, parent := 0, title := "b".data,
           class_name := [], pid := 4, procInfo := none, rect := none }]
        none).1).map (fun w => w.index) = [1] ∧
    ({ hwnd := 5, pid := 3, title := "a".data, class_name := [],
       process_name := [], process_file := [], index := 1,
       position := ⟨0, 0, 0, 0⟩ } : WindowInfo) ∈
      (enumerate_all_windows []
        [{ hwnd := 5, visible := true, parent := 0, title := "a".data,
           class_name := [], pid := 3, procInfo := none, rect := none },
         { hwnd := 6, visible := false, parent := 0, title := "b".data,
           class_name := [], pid := 4, procInfo := none, rect := none }]
        none).1 := by
  constructor
  · have h := (c2_snapshot_indices []
      [{ hwnd := 5, visible := true, parent := 0, title := "a".data,
         class_name := [], pid := 3, procInfo := none, rect := none },
       { hwnd := 6, visible := false, parent := 0, title := "b".data,
         class_name := [], pid := 4, procInfo := none, rect := none }]).1
    simpa using h
  · exact (c2_snapshot_indices [] _).2.2.1 {} {} .All _ (by decide)

/-! ## C3: top-level enumeration failure -/

/-- Counterexample to C3 as stated: when the Window Source delivers one
  visible top-level window and then the top-level `EnumWindows` call
  fails, `enumerate_all_windows` propagates the platform error with the
  already-collected window still in the accumulator — the resulting
  window list is not empty, i.e. a partial snapshot is retained. -/
theorem c3_no_partial_snapshot_counterexample :
    (enumerate_all_windows
        [{ hwnd := 9, pid := 1, title := [], class_name := [],
           process_name := [], process_file := [], index := 1,
           position := ⟨0, 0, 0, 0⟩ }]
        [{ hwnd := 5, visible := true, parent := 0, title := [],
           class_name := [], pid := 0, procInfo := none, rect := none }]
        (some 7)).2 = .error (.WindowsApiError 7) ∧
    (enumerate_all_windows
        [{ hwnd := 9, pid := 1, title := [], class_name := [],
           process_name := [], process_file := [], index := 1,
           position := ⟨0, 0, 0, 0⟩ }]
        [{ hwnd := 5, visible := true, parent := 0, title := [],
           class_name := [], pid := 0, procInfo := none, rect := none }]
        (some 7)).1 ≠ [] := by decide

/-- C3 (amended): if the top-level enumeration call fails, snapshot
  construction aborts with the platform enumeration error and the
  previous snapshot has already been discarded (the result is
  independent of it); the resulting window list holds exactly the
  windows collected before the failure — so it is empty when the
  failure precedes any window delivery, but a partial snapshot is
  retained when windows were already delivered. -/
theorem c3_enumeration_failure_amended (prev prev' : List WindowInfo)
    (delivered : List RawWindow) (code : Nat) :
    (enumerate_all_windows prev delivered (some code)).2 =
      .error (.WindowsApiError code) ∧
    enumerate_all_windows prev delivered (some code) =
      enumerate_all_windows prev' delivered (some code) ∧
    (enumerate_all_windows prev delivered (some code)).1 =
      pushLoop [] delivered ∧
    (delivered = [] →
      (enumerate_all_windows prev delivered (some code)).1 = []) := by
  refine ⟨rfl, rfl, rfl, ?_⟩
  rintro rfl
  rfl

/-- Witness for C3 (amended) at concrete inputs: with no windows
  delivered before the failure, the snapshot ends empty and the platform
  error is surfaced, for any previous snapshot. -/
theorem c3_enumeration_failure_amended_witness :
    (enumerate_all_windows
        [{ hwnd := 9, pid := 1, title := [], class_name := [],
           process_name := [], process_file := [], index := 1,
           position := ⟨0, 0, 0, 0⟩ }] [] (some 3)).1 = [] ∧
    (enumerate_all_windows
        [{ hwnd := 9, pid := 1, title := [], class_name := [],
           process_name := [], process_file := [], index := 1,
           position := ⟨0, 0, 0, 0⟩ }] [] (some 3)).2 =
      .error (.WindowsApiError 3) :=
  ⟨(c3_enumeration_failure_amended _ [] [] 3).2.2.2 rfl,
   (c3_enumeration_failure_amended _ [] [] 3).1⟩

/-! ## C9: per-window metadata failures are recovered locally -/

/-- C9: `get_window_info` never fails; with owning pid 0 the process
  name/path are empty and the result does not depend on the process
  metadata at all (no query attempted); with non-zero pid and a failed
  metadata query the window still gets empty name/path; and the snapshot
  always contains exactly the windows passing the inclusion rule —
  metadata failures never drop a window and never surface as errors. -/
theorem c9_metadata_failure_recovery (r : RawWindow) :
    get_window_info r = .ok (windowInfoOf r) ∧
    (r.pid = 0 → (windowInfoOf r).process_name = [] ∧
        (windowInfoOf r).process_file = [] ∧
        (∀ pi, windowInfoOf { r with procInfo := pi } = windowInfoOf r)) ∧
    (r.pid ≠ 0 → r.procInfo = none →
        (windowInfoOf r).process_name = [] ∧
        (windowInfoOf r).process_file = []) ∧
    (∀ (prev : List WindowInfo) (delivered : List RawWindow),
        ((enumerate_all_windows prev delivered none).1).length =
          (delivered.filter includeRaw).length) := by
  refine ⟨rfl, ?_, ?_, ?_⟩
  · intro h0
    have hng : ¬ r.pid > 0 := by omega
    refine ⟨by simp [windowInfoOf, hng], by simp [windowInfoOf, hng], ?_⟩
    intro pi
    simp [windowInfoOf, hng]
  · intro hne hpi
    have hg : r.pid > 0 := Nat.pos_of_ne_zero hne
    exact ⟨by simp [windowInfoOf, hg, hpi], by simp [windowInfoOf, hg, hpi]⟩
  · intro prev delivered
    show (assignIndices (pushLoop [] delivered) 1).length = _
    rw [assignIndices_length, pushLoop_length]
    simp

/-- Witness for C9 at concrete inputs: a pid-0 window and a window whose
  metadata query failed are both kept with empty name/path. -/
theorem c9_metadata_failure_recovery_witness :
    (windowInfoOf
        { hwnd := 5, visible := true, parent := 0, title := [],
          class_name := [], pid := 0, procInfo := some (['a'], ['b']),
          rect := none }).process_name = [] ∧
    (windowInfoOf
        { hwnd := 6, visible := true, parent := 0, title := [],
          class_name := [], pid := 8, procInfo := none,
          rect := none }).process_file = [] ∧
    ((enumerate_all_windows []
        [{ hwnd := 6, visible := true, parent := 0, title := [],
           class_name := [], pid := 8, procInfo := none, rect := none }]
        none).1).length = 1 := by
  refine ⟨((c9_metadata_failure_recovery _).2.1 rfl).1,
          ((c9_metadata_failure_recovery _).2.2.1 (by decide) rfl).2, ?_⟩
  have h := (c9_metadata_failure_recovery
    { hwnd := 6, visible := true, parent := 0, title := [],
      class_name := [], pid := 8, procInfo := none,
      rect := none }).2.2.2 []
    [{ hwnd := 6, visible := true, parent := 0, title := [],
       class_name := [], pid := 8, procInfo := none, rect := none }]
  simpa using h

end WinEnum
